import Mathlib

/-
Verification of the ds-s3 uploader core (internal/uploader/uploader.go)
against its natural-language specification.

Shallow embedding conventions:
* Go strings are modelled as lists of characters (Str below).  The string
  helpers used by the code (strings.TrimSpace, strings.Trim(s, "/"),
  strings.ToLower on ASCII data, filepath.Ext, filepath.Base) are translated
  directly; unicode.IsSpace is modelled on the character classes that occur
  in object keys and prefixes (ASCII whitespace plus NEL and NBSP).
* Library effects (os.Stat, filepath.WalkDir, filepath.Clean, the S3 client
  calls, mime.TypeByExtension, http.DetectContentType) are modelled as
  oracles: functions supplied as part of the input describing what the
  environment answers.  The repository code under test is translated
  literally against those oracles.
* Go's (value, error) returns are modelled either as Except or, where the
  claim is about which value accompanies an error (upload returns nil
  results, cleanup returns the partial count), as an explicit pair.
* Network calls are recorded in an event trace so that temporal claims
  (which calls were issued, with which arguments, in which order) are
  statable.
-/

namespace DsS3

/-- Go strings, modelled as lists of characters. -/
abbrev Str := List Char

/-- The whitespace class used by strings.TrimSpace (unicode.IsSpace): ASCII
whitespace plus NEL and NBSP; object keys and prefixes never contain the
remaining unicode space code points, on which the model does not depend. -/
def isSpaceChar (c : Char) : Bool :=
  c = ' ' || c = '\t' || c = '\n' ||
  c = (Char.ofNat 11) || c = (Char.ofNat 12) || c = '\r' ||
  c = (Char.ofNat 0x85) || c = (Char.ofNat 0xA0)

/-- strings.Trim with a one-character cutset, generalized over the character
predicate: drop matching characters from both ends. -/
def trimBy (p : Char → Bool) (s : Str) : Str :=
  ((s.dropWhile p).reverse.dropWhile p).reverse

/-- strings.TrimSpace. -/
def trimSpace (s : Str) : Str := trimBy isSpaceChar s

/-- strings.Trim(s, "/"). -/
def trimSlash (s : Str) : Str := trimBy (fun c => c = '/') s

/-- strings.ToLower; Char.toLower agrees with it on the ASCII data
(error codes, file extensions) this code lowercases. -/
def toLowerStr (s : Str) : Str := s.map Char.toLower

/-- uploader.go, normalizePrefix: trim whitespace, then strip leading and
trailing slashes. -/
def normalizePrefix (pfx : Str) : Str :=
  trimSlash (trimSpace pfx)

/-- uploader.go, joinKey. -/
def joinKey (pfx rel : Str) : Str :=
  let rel := trimSlash (trimSpace rel)
  if rel = [] then pfx
  else if pfx = [] then rel
  else pfx ++ '/' :: rel

/-- uploader.go, stringPointer: nil for blank strings, a pointer otherwise
(modelled as Option). -/
def stringPointer (value : Str) : Option Str :=
  if trimSpace value = [] then none else some value

/-- The key-builder contract transcribed from the specification text of
section 4.1, for comparison with the code's joinKey. -/
def joinKeySpec (pfx rel : Str) : Str :=
  match trimSlash (trimSpace rel), pfx with
  | [], _ => pfx
  | r, [] => r
  | r, _ => pfx ++ '/' :: r

/-- The prefix-normalization contract transcribed from the specification
text of section 4.1. -/
def normalizePrefixSpec (pfx : Str) : Str :=
  trimBy (fun c => c = '/') (trimBy isSpaceChar pfx)

/-! ## Plan builder (BuildPlans) -/

/-- uploader.FilePlan. -/
structure FilePlan where
  Source : Str
  Key : Str
  Size : Int
deriving DecidableEq, Repr

/-- What os.Stat plus filepath.WalkDir report for one path.  A directory's
walk field is the listing the WalkDir library call produces for it: the
files below the root in deterministic depth-first lexical order, each with
its path relative to that root (slash-separated) and its size.  Directory
entries themselves carry no item, mirroring the entry.IsDir() skip. -/
inductive StatResult where
  | fileStat (size : Int)
  | dirStat (walk : List (Str × Int))
deriving DecidableEq, Repr

/-- The local filesystem as BuildPlans consults it: stat resolves a path
(none models a stat error), clean models the filepath.Clean library
call used for the walk root in Source fields. -/
structure Fs where
  stat : Str → Option StatResult
  clean : Str → Str

/-- filepath.ToSlash: path separators become '/'.  The model's separator is
already '/', so this is the identity. -/
def toSlash (s : Str) : Str := s

/-- filepath.Base for slash-separated paths: empty path is ".", a path of
slashes only is "/", otherwise the last element after stripping trailing
slashes. -/
def baseName (p : Str) : Str :=
  if p = [] then ['.']
  else
    let q := (p.reverse.dropWhile (fun c => c = '/')).reverse
    if q = [] then ['/']
    else (q.reverse.takeWhile (fun c => c ≠ '/')).reverse

/-- Joining a parent path and a child name with '/'; an empty parent yields
the bare name. -/
def relJoin (a b : Str) : Str :=
  if a = [] then b else a ++ '/' :: b

/-- The error shapes BuildPlans produces, one constructor per
fmt.Errorf site: "at least one source path must be specified",
"encountered empty source path entry", "failed to stat ...", and
"duplicate object key detected: ..." (the DuplicateKey error, carrying
the colliding key). -/
inductive BpError where
  | noSourcePaths
  | emptyEntry
  | statFailed (path : Str)
  | duplicateKey (key : Str)
deriving DecidableEq, Repr

/-- The object key of one walked directory entry. -/
def walkKey (basePfx : Str) (e : Str × Int) : Str :=
  joinKey basePfx (toSlash e.1)

/-- The plan of one walked directory entry: its source is the walk root
joined with the relative path (WalkDir's current path). -/
def walkPlan (basePfx root : Str) (e : Str × Int) : FilePlan :=
  ⟨relJoin root e.1, walkKey basePfx e, e.2⟩

/-- The body of the WalkDir callback in BuildPlans, iterated over the
walked files of one directory: key each file, fail on a duplicate key,
otherwise record the key as seen and append the plan. -/
def addWalk (basePfx root : Str) :
    List (Str × Int) → List Str → List FilePlan →
    Except BpError (List Str × List FilePlan)
  | [], seen, plans => .ok (seen, plans)
  | e :: rest, seen, plans =>
    let key := walkKey basePfx e
    if key ∈ seen then .error (.duplicateKey key)
    else addWalk basePfx root rest (key :: seen) (plans ++ [walkPlan basePfx root e])

/-- The loop of BuildPlans over the input paths, carrying the running seen
set and the accumulated plans.  A nil-plus-error Go return is the .error
constructor (no plans accompany an error). -/
def buildGo (fs : Fs) (basePfx : Str) :
    List Str → List Str → List FilePlan → Except BpError (List FilePlan)
  | [], _, plans => .ok plans
  | cand :: rest, seen, plans =>
    let path := trimSpace cand
    if path = [] then .error .emptyEntry
    else
      match fs.stat path with
      | none => .error (.statFailed path)
      | some (.dirStat walk) =>
        match addWalk basePfx (fs.clean path) walk seen plans with
        | .error e => .error e
        | .ok (seen2, plans2) => buildGo fs basePfx rest seen2 plans2
      | some (.fileStat sz) =>
        let key := joinKey basePfx (toSlash (baseName path))
        if key ∈ seen then .error (.duplicateKey key)
        else buildGo fs basePfx rest (key :: seen) (plans ++ [⟨path, key, sz⟩])

/-- uploader.BuildPlans. -/
def BuildPlans (fs : Fs) (paths : List Str) (pfx : Str) :
    Except BpError (List FilePlan) :=
  if paths.isEmpty then .error .noSourcePaths
  else buildGo fs (normalizePrefix pfx) paths [] []

/-- The keys one input path resolves to, in traversal order (specification
side, used to state the duplicate-detection claim). -/
def pathKeys (fs : Fs) (basePfx : Str) (cand : Str) : List Str :=
  match fs.stat (trimSpace cand) with
  | some (.fileStat _) => [joinKey basePfx (toSlash (baseName (trimSpace cand)))]
  | some (.dirStat walk) => walk.map (walkKey basePfx)
  | none => []

/-- Every key the whole call would assign, in traversal order. -/
def plannedKeys (fs : Fs) (paths : List Str) (pfx : Str) : List Str :=
  (paths.map (pathKeys fs (normalizePrefix pfx))).flatten

/-- The first key that repeats an already-seen one, scanning left to
right: the second occurrence in traversal order. -/
def firstDupFrom (seen : List Str) : List Str → Option Str
  | [] => none
  | k :: rest => if k ∈ seen then some k else firstDupFrom (k :: seen) rest

/-- The first duplicated key of a key sequence, if any. -/
def firstDup (ks : List Str) : Option Str := firstDupFrom [] ks

/-! ## Storage errors and the existence guard -/

/-- An error returned by a storage call, as isNotFound inspects it: whether
errors.As finds an s3types.NotFound, whether it finds an s3types.NoSuchKey,
and the code of the smithy APIError that errors.As finds, if one does. -/
structure S3Error where
  notFoundType : Bool
  noSuchKeyType : Bool
  apiErrorCode : Option Str
deriving DecidableEq, Repr

/-- uploader.go, isNotFound: nil is not a not-found; the two typed
not-found errors are; otherwise an API error whose lowercased code is one
of "notfound", "nosuchkey", "404", "no such key" is. -/
def isNotFound : Option S3Error → Bool
  | none => false
  | some e =>
    if e.notFoundType then true
    else if e.noSuchKeyType then true
    else
      match e.apiErrorCode with
      | some code =>
        let c := toLowerStr code
        c == "notfound".data || c == "nosuchkey".data ||
          c == "404".data || c == "no such key".data
      | none => false

/-- The outcome of Transport.ensureAbsent, one constructor per return
site: nil, the "object ... already exists and overwrite is disabled"
error (ObjectExists, naming the key), and the "failed to check if ...
exists" error (IOError, naming the key and wrapping the cause). -/
inductive EnsureResult where
  | ok
  | objectExists (key : Str)
  | ioError (key : Str) (cause : S3Error)
deriving DecidableEq, Repr

/-- uploader.go, Transport.ensureAbsent, against a HeadObject oracle that
answers per key with the call's error (none = the call succeeded, the
object exists). -/
def ensureAbsent (head : Str → Option S3Error) (key : Str) : EnsureResult :=
  match head key with
  | none => .objectExists key
  | some e => if isNotFound (some e) then .ok else .ioError key e

/-! ## Cleanup engine -/

/-- One scripted page of the ListObjectsV2 backend, in the order the
backend serves them: the listing error if the call fails, otherwise the
page's object keys and continuation token, and the error DeleteObjects
would return for this page's batch. -/
structure PageScript where
  listErr : Option S3Error
  contents : List Str
  next : Option Str
  deleteErr : Option S3Error
deriving Repr

/-- The network calls Cleanup issues: each listing call with the prefix
argument (none = nil pointer, whole bucket) and continuation token it
passed, and each batch deletion with the keys it named and its Quiet
flag. -/
inductive CleanEv where
  | listCall (pfx : Option Str) (token : Option Str)
  | deleteCall (keys : List Str) (quiet : Bool)
deriving DecidableEq, Repr

/-- Whether an event is a batch deletion. -/
def isDeleteEv : CleanEv → Bool
  | .deleteCall _ _ => true
  | _ => false

/-- The errors Cleanup returns: "failed to list objects for cleanup" and
"failed to delete objects", each wrapping the cause. -/
inductive CleanErr where
  | listFailed (cause : S3Error)
  | deleteFailed (cause : S3Error)
deriving DecidableEq, Repr

/-- The for-loop of Transport.Cleanup, against the scripted backend: pages
are consumed in order; once the script is exhausted further listing calls
answer an empty page with no continuation token (the backend has nothing
more to say).  Returns (total, error) exactly as the Go code does -
the accumulated count accompanies an error - plus the event trace. -/
def cleanupLoop (pfx : Option Str) :
    List PageScript → Option Str → Nat → (Nat × Option CleanErr) × List CleanEv
  | [], token, total => ((total, none), [.listCall pfx token])
  | pg :: rest, token, total =>
    match pg.listErr with
    | some e => ((total, some (.listFailed e)), [.listCall pfx token])
    | none =>
      if pg.contents.isEmpty then
        match pg.next with
        | none => ((total, none), [.listCall pfx token])
        | some t =>
          let r := cleanupLoop pfx rest (some t) total
          (r.1, .listCall pfx token :: r.2)
      else
        match pg.deleteErr with
        | some e =>
          ((total, some (.deleteFailed e)),
           [.listCall pfx token, .deleteCall pg.contents true])
        | none =>
          match pg.next with
          | none =>
            ((total + pg.contents.length, none),
             [.listCall pfx token, .deleteCall pg.contents true])
          | some t =>
            let r := cleanupLoop pfx rest (some t) (total + pg.contents.length)
            (r.1, .listCall pfx token :: .deleteCall pg.contents true :: r.2)

/-- uploader.go, Transport.Cleanup: normalize the prefix, suffix a
non-empty one with '/', and run the listing/deletion loop with no
continuation token and a zero count. -/
def Cleanup (pages : List PageScript) (pfx : Str) :
    (Nat × Option CleanErr) × List CleanEv :=
  let resolved := normalizePrefix pfx
  let resolved := if resolved ≠ [] then resolved ++ ['/'] else resolved
  cleanupLoop (stringPointer resolved) pages none 0

/-- The pages the loop consumes before terminating normally: up to and
including the first page with no continuation token (specification side). -/
def consumedPages : List PageScript → List PageScript
  | [] => []
  | pg :: rest =>
    match pg.next with
    | none => [pg]
    | some _ => pg :: consumedPages rest

/-- How many objects the loop has deleted before its first failing call
(specification side, for the partial-progress claim). -/
def deletedBeforeFailure : List PageScript → Nat
  | [] => 0
  | pg :: rest =>
    match pg.listErr with
    | some _ => 0
    | none =>
      if pg.contents.isEmpty then
        match pg.next with
        | none => 0
        | some _ => deletedBeforeFailure rest
      else
        match pg.deleteErr with
        | some _ => 0
        | none =>
          pg.contents.length +
            match pg.next with
            | none => 0
            | some _ => deletedBeforeFailure rest

/-! ## Transfer engine (Upload) -/

/-- The scan inside filepath.Ext: walk the path from its end towards the
front, carrying the characters already passed; a separator means no
extension, a dot returns the suffix from that dot on. -/
def extScan : List Char → Str → Str
  | [], _ => []
  | c :: rest, acc =>
    if c = '/' then []
    else if c = '.' then '.' :: acc
    else extScan rest (c :: acc)

/-- filepath.Ext: the suffix beginning at the final dot in the final
path element, empty when there is none. -/
def filepathExt (p : Str) : Str := extScan p.reverse []

/-- uploader.UploadResult; ETag is aws.ToString of the returned pointer, so
a backend that omits the token yields the empty string. -/
structure UploadResult where
  Source : Str
  Key : Str
  Size : Int
  ETag : Str
deriving DecidableEq, Repr

/-- The environment Transport.Upload runs against: the HeadObject answer
per key (none = success, the object exists), whether os.Open succeeds per
source path, each source file's bytes, whether Seek(0, SeekStart) succeeds
per source path, the streaming put's answer per key (the optional ETag, or
an error), the mime.TypeByExtension table (empty string = no entry) and
http.DetectContentType sniffing.  File reads themselves are modelled as
reliable: a regular file delivers min(512, remaining) bytes to the sniff
buffer. -/
structure World where
  head : Str → Option S3Error
  openOk : Str → Bool
  content : Str → List UInt8
  seekOk : Str → Bool
  put : Str → Except S3Error (Option Str)
  mimeByExt : Str → Str
  sniff : List UInt8 → Str

/-- uploader.go, detectContentType, over a file whose read position is
pos: extension lookup first; on a miss, read up to 512 bytes from the
current position (advancing it) and sniff them. -/
def detectContentType (w : World) (path : Str) (c : List UInt8) (pos : Nat) :
    Str × Nat :=
  let ext := toLowerStr (filepathExt path)
  if ext ≠ [] ∧ w.mimeByExt ext ≠ [] then (w.mimeByExt ext, pos)
  else
    let n := min 512 (c.length - pos)
    (w.sniff ((c.drop pos).take n), pos + n)

/-- The per-plan network and file calls Upload issues, in order. -/
inductive UpEv where
  | headCall (key : Str)
  | openCall (src : Str)
  | putCall (key : Str) (contentType : Option Str) (body : List UInt8)
deriving DecidableEq, Repr

/-- The errors Upload returns, one constructor per return site: "no files
provided for upload", the guard's two failures, "failed to open ...",
"failed to rewind ...", and "failed to upload ... to ...". -/
inductive UpErr where
  | noFiles
  | objectExists (key : Str)
  | headFailed (key : Str) (cause : S3Error)
  | openFailed (src : Str)
  | seekFailed (src : Str)
  | putFailed (src : Str) (key : Str) (cause : S3Error)
deriving DecidableEq, Repr

/-- The body of Upload's loop for one plan: the existence guard when
overwrite is disabled, then open, content-type detection from position 0,
the rewind to the start, and the streaming put of the bytes from the
rewound position. -/
def uploadStep (w : World) (overwrite : Bool) (p : FilePlan) :
    Except UpErr UploadResult × List UpEv :=
  let guardEv : List UpEv := if overwrite then [] else [.headCall p.Key]
  let guardErr : Option UpErr :=
    if overwrite then none
    else
      match ensureAbsent w.head p.Key with
      | .ok => none
      | .objectExists k => some (.objectExists k)
      | .ioError k e => some (.headFailed k e)
  match guardErr with
  | some e => (.error e, guardEv)
  | none =>
    if w.openOk p.Source then
      let c := w.content p.Source
      let ct := (detectContentType w p.Source c 0).1
      if w.seekOk p.Source then
        let pos : Nat := 0
        let body := c.drop pos
        match w.put p.Key with
        | .error e =>
          (.error (.putFailed p.Source p.Key e),
           guardEv ++ [.openCall p.Source, .putCall p.Key (stringPointer ct) body])
        | .ok etag =>
          (.ok ⟨p.Source, p.Key, p.Size, etag.getD []⟩,
           guardEv ++ [.openCall p.Source, .putCall p.Key (stringPointer ct) body])
      else (.error (.seekFailed p.Source), guardEv ++ [.openCall p.Source])
    else (.error (.openFailed p.Source), guardEv ++ [.openCall p.Source])

/-- Upload's loop over the plans: the first failing plan returns nil
results together with the error (the accumulated results are dropped, as
the Go return nil, err does); a fully successful run returns the
accumulated results. -/
def uploadLoop (w : World) (overwrite : Bool) :
    List FilePlan → List UploadResult →
    (List UploadResult × Option UpErr) × List UpEv
  | [], acc => ((acc, none), [])
  | p :: rest, acc =>
    match uploadStep w overwrite p with
    | (.error e, ev) => (([], some e), ev)
    | (.ok r, ev) =>
      let t := uploadLoop w overwrite rest (acc ++ [r])
      (t.1, ev ++ t.2)

/-- uploader.go, Transport.Upload: reject an empty plan list before any
call, then run the loop. -/
def Upload (w : World) (overwrite : Bool) (plans : List FilePlan) :
    (List UploadResult × Option UpErr) × List UpEv :=
  if plans.isEmpty then (([], some .noFiles), [])
  else uploadLoop w overwrite plans []

/-! ## Concrete instances used to evaluate the theorems -/

/-- A filesystem holding the single regular file a.txt of three bytes. -/
def fsDupFile : Fs where
  stat := fun p => if p = "a.txt".data then some (.fileStat 3) else none
  clean := fun p => p

/-- A filesystem whose one path is a directory tree containing no files:
its walk lists nothing. -/
def fsEmptyDir : Fs where
  stat := fun p => if p = "data".data then some (.dirStat []) else none
  clean := fun p => p

/-- A typed not-found storage error. -/
def errNotFound : S3Error := ⟨true, false, none⟩

/-- A storage error that is not a not-found condition. -/
def errBoom : S3Error := ⟨false, false, some ("internalerror".data)⟩

/-- An environment in which every transfer succeeds: every probe answers
not-found, files open, seek and put succeed, no extension is known, and
sniffing answers the binary fallback type. -/
def wAllOk : World where
  head := fun _ => some errNotFound
  openOk := fun _ => true
  content := fun _ => []
  seekOk := fun _ => true
  put := fun _ => .ok (some ("tag".data))
  mimeByExt := fun _ => []
  sniff := fun _ => "application/octet-stream".data

/-- Like wAllOk, except opening the file b fails. -/
def wOpenBFails : World :=
  { wAllOk with openOk := fun s => if s = "b".data then false else true }

/-- Like wAllOk, except every existence probe succeeds: every key is
already taken. -/
def wHeadTaken : World :=
  { wAllOk with head := fun _ => none }

/-- Like wAllOk, with a mime-table entry for the .txt extension. -/
def wTxtMime : World :=
  { wAllOk with
    mimeByExt := fun e =>
      if e = ".txt".data then "text/plain; charset=utf-8".data else [] }

/-- Three one-byte plans for sources a, b, c. -/
def planA : FilePlan := ⟨"a".data, "p/a".data, 1⟩

/-- The second of the three plans. -/
def planB : FilePlan := ⟨"b".data, "p/b".data, 1⟩

/-- The third of the three plans. -/
def planC : FilePlan := ⟨"c".data, "p/c".data, 1⟩

/-- A two-page listing script: a page of two keys with a continuation
token, then a terminal empty page. -/
def pagesTwoThenEmpty : List PageScript :=
  [⟨none, ["logs/a".data, "logs/b".data], some ("t1".data), none⟩,
   ⟨none, [], none, none⟩]

/-- A script whose second listing call fails after a first page of two
keys was deleted. -/
def pagesThenListFails : List PageScript :=
  [⟨none, ["logs/a".data, "logs/b".data], some ("t1".data), none⟩,
   ⟨some errBoom, [], none, none⟩]

/-! ## Helper lemmas -/

/-- A trim that erased the whole string saw only characters of its
class. -/
theorem trimBy_eq_nil_forall (p : Char → Bool) (s : Str)
    (h : trimBy p s = []) : ∀ c ∈ s, p c = true := by
  intro c hc
  have h1 : (s.dropWhile p).reverse.dropWhile p = [] :=
    List.reverse_eq_nil_iff.mp h
  have h2 : ∀ x ∈ s.dropWhile p, p x = true := by
    intro x hx
    exact (List.dropWhile_eq_nil_iff.mp h1) x (List.mem_reverse.mpr hx)
  rcases List.mem_append.mp
      (by rw [List.takeWhile_append_dropWhile]; exact hc :
        c ∈ s.takeWhile p ++ s.dropWhile p) with hkeep | hdrop
  · exact List.mem_takeWhile_imp hkeep
  · exact h2 c hdrop

/-- A normalized non-empty prefix suffixed with '/' is not blank, so
stringPointer passes it through. -/
theorem stringPointer_slash (q : Str) :
    stringPointer (q ++ ['/']) = some (q ++ ['/']) := by
  rw [stringPointer]
  have hne : trimSpace (q ++ ['/']) ≠ [] := by
    intro hnil
    have := trimBy_eq_nil_forall isSpaceChar (q ++ ['/']) hnil '/'
      (List.mem_append.mpr (Or.inr (List.mem_singleton.mpr rfl)))
    revert this
    decide
  simp [hne]

/-! ## C1: the key builder -/

/-- C1: normalizePrefix trims whitespace then strips leading and trailing
slashes, the empty string being legal; joinKey trims the relative path of
whitespace and slashes, returns the prefix when the trimmed relative path
is empty, returns the relative path when the prefix is empty, and
otherwise joins them with a slash; joinKey is referentially transparent. -/
theorem key_builder_matches_spec :
    ∀ pfx rel : Str,
      normalizePrefix pfx = normalizePrefixSpec pfx ∧
      joinKey pfx rel = joinKeySpec pfx rel ∧
      (trimSlash (trimSpace rel) = [] → joinKey pfx rel = pfx) ∧
      (trimSlash (trimSpace rel) ≠ [] → pfx = [] →
        joinKey pfx rel = trimSlash (trimSpace rel)) ∧
      (trimSlash (trimSpace rel) ≠ [] → pfx ≠ [] →
        joinKey pfx rel = pfx ++ '/' :: trimSlash (trimSpace rel)) ∧
      (∀ pfx2 rel2, pfx = pfx2 → rel = rel2 → joinKey pfx rel = joinKey pfx2 rel2) := by
  intro pfx rel
  refine ⟨rfl, ?_, ?_, ?_, ?_, ?_⟩
  · cases h : trimSlash (trimSpace rel) with
    | nil => simp [joinKey, joinKeySpec, h]
    | cons a l =>
      cases pfx with
      | nil => simp [joinKey, joinKeySpec, h]
      | cons b m => simp [joinKey, joinKeySpec, h]
  · intro h; simp [joinKey, h]
  · intro h hp; simp [joinKey, h, hp]
  · intro h hp; simp [joinKey, h, hp]
  · intro pfx2 rel2 h1 h2; rw [h1, h2]

/-! ## C4: the existence guard -/

/-- C4: ensureAbsent has exactly three outcomes: a successful probe (the
object exists) becomes an ObjectExists failure naming the key, a
recognized not-found error is success, and any other error is surfaced as
an IOError naming the key and wrapping the cause. -/
theorem ensureAbsent_trichotomy :
    ∀ (head : Str → Option S3Error) (key : Str),
      (head key = none → ensureAbsent head key = .objectExists key) ∧
      (∀ e, head key = some e → isNotFound (some e) = true →
        ensureAbsent head key = .ok) ∧
      (∀ e, head key = some e → isNotFound (some e) = false →
        ensureAbsent head key = .ioError key e) := by
  intro head key
  refine ⟨?_, ?_, ?_⟩
  · intro h; simp [ensureAbsent, h]
  · intro e h hnf; simp [ensureAbsent, h, hnf]
  · intro e h hnf; simp [ensureAbsent, h, hnf]

/-! ## C2: duplicate-key detection in BuildPlans -/

/-- Scanning a concatenation for the first repeat: either the left part
already repeats, or the scan continues over the right part with the left
part added to the seen set. -/
theorem firstDupFrom_append (a b : List Str) : ∀ seen,
    firstDupFrom seen (a ++ b) =
      match firstDupFrom seen a with
      | some k => some k
      | none => firstDupFrom (a.reverse ++ seen) b := by
  induction a with
  | nil => intro seen; simp [firstDupFrom]
  | cons k rest ih =>
    intro seen
    by_cases h : k ∈ seen
    · simp [firstDupFrom, h]
    · have hL : firstDupFrom seen ((k :: rest) ++ b) =
          firstDupFrom (k :: seen) (rest ++ b) := by
        simp [firstDupFrom, h]
      have hR : firstDupFrom seen (k :: rest) =
          firstDupFrom (k :: seen) rest := by
        simp [firstDupFrom, h]
      rw [hL, ih (k :: seen), hR]
      cases hr : firstDupFrom (k :: seen) rest with
      | some k2 => simp
      | none =>
        have h2 : (k :: rest).reverse ++ seen = rest.reverse ++ (k :: seen) := by
          simp
        simp only [h2]

/-- If the walked keys of one directory repeat a seen key, the walk
callback fails with DuplicateKey carrying the first repeating key. -/
theorem addWalk_dup (basePfx root : Str) :
    ∀ (ws : List (Str × Int)) (seen : List Str) (plans : List FilePlan) (k : Str),
      firstDupFrom seen (ws.map (walkKey basePfx)) = some k →
      addWalk basePfx root ws seen plans = .error (.duplicateKey k) := by
  intro ws
  induction ws with
  | nil => intro seen plans k h; simp [firstDupFrom] at h
  | cons e rest ih =>
    intro seen plans k h
    by_cases hmem : walkKey basePfx e ∈ seen
    · simp only [List.map_cons, firstDupFrom, hmem, if_true] at h
      injection h with h2
      subst h2
      simp [addWalk, hmem]
    · simp only [List.map_cons, firstDupFrom, hmem, if_false] at h
      simp only [addWalk, hmem, if_false]
      exact ih _ _ _ h

/-- If the walked keys of one directory repeat nothing, the walk callback
succeeds, prepending the new keys to the seen set and appending one plan
per walked file. -/
theorem addWalk_ok (basePfx root : Str) :
    ∀ (ws : List (Str × Int)) (seen : List Str) (plans : List FilePlan),
      firstDupFrom seen (ws.map (walkKey basePfx)) = none →
      addWalk basePfx root ws seen plans =
        .ok ((ws.map (walkKey basePfx)).reverse ++ seen,
             plans ++ ws.map (walkPlan basePfx root)) := by
  intro ws
  induction ws with
  | nil => intro seen plans _; simp [addWalk]
  | cons e rest ih =>
    intro seen plans h
    by_cases hmem : walkKey basePfx e ∈ seen
    · simp [firstDupFrom, hmem] at h
    · simp only [List.map_cons, firstDupFrom, hmem, if_false] at h
      simp only [addWalk, hmem, if_false, ih _ _ h]
      simp [List.append_assoc]

/-- The flattened key list of several input paths splits at the first
path. -/
theorem plannedKeys_cons (fs : Fs) (basePfx : Str) (cand : Str) (rest : List Str) :
    ((cand :: rest).map (pathKeys fs basePfx)).flatten =
      pathKeys fs basePfx cand ++ (rest.map (pathKeys fs basePfx)).flatten := by
  simp

/-- If the keys the whole call would assign repeat, BuildPlans' loop fails
with DuplicateKey carrying the first repeating key, provided every path is
non-blank and stats successfully. -/
theorem buildGo_dup (fs : Fs) (basePfx : Str) :
    ∀ (paths : List Str) (seen : List Str) (plans : List FilePlan) (k : Str),
      (∀ p ∈ paths, trimSpace p ≠ [] ∧ (fs.stat (trimSpace p)).isSome) →
      firstDupFrom seen ((paths.map (pathKeys fs basePfx)).flatten) = some k →
      buildGo fs basePfx paths seen plans = .error (.duplicateKey k) := by
  intro paths
  induction paths with
  | nil => intro seen plans k _ h; simp [firstDupFrom] at h
  | cons cand rest ih =>
    intro seen plans k hok h
    obtain ⟨hne, hstat⟩ := hok cand (List.mem_cons_self cand rest)
    have hok' : ∀ p ∈ rest, trimSpace p ≠ [] ∧ (fs.stat (trimSpace p)).isSome :=
      fun p hp => hok p (List.mem_cons_of_mem _ hp)
    rw [plannedKeys_cons, firstDupFrom_append] at h
    match hs : fs.stat (trimSpace cand) with
    | none => rw [hs] at hstat; simp at hstat
    | some (.fileStat sz) =>
      have hkeys : pathKeys fs basePfx cand =
          [joinKey basePfx (toSlash (baseName (trimSpace cand)))] := by
        simp [pathKeys, hs]
      rw [hkeys] at h
      by_cases hmem : joinKey basePfx (toSlash (baseName (trimSpace cand))) ∈ seen
      · simp only [firstDupFrom, hmem, if_true] at h
        injection h with h2
        subst h2
        simp [buildGo, hne, hs, hmem]
      · simp only [firstDupFrom, hmem, if_false, List.reverse_singleton,
          List.singleton_append] at h
        have hrec := ih (joinKey basePfx (toSlash (baseName (trimSpace cand))) :: seen)
          (plans ++ [⟨trimSpace cand,
            joinKey basePfx (toSlash (baseName (trimSpace cand))), sz⟩]) k hok' h
        simp [buildGo, hne, hs, hmem]
        exact hrec
    | some (.dirStat walk) =>
      have hkeys : pathKeys fs basePfx cand = walk.map (walkKey basePfx) := by
        simp [pathKeys, hs]
      rw [hkeys] at h
      cases hd : firstDupFrom seen (walk.map (walkKey basePfx)) with
      | some k2 =>
        rw [hd] at h
        injection h with h2
        subst h2
        simp [buildGo, hne, hs,
          addWalk_dup basePfx (fs.clean (trimSpace cand)) walk seen plans k2 hd]
      | none =>
        rw [hd] at h
        have hrec := ih ((walk.map (walkKey basePfx)).reverse ++ seen)
          (plans ++ walk.map (walkPlan basePfx (fs.clean (trimSpace cand)))) k hok' h
        simp [buildGo, hne, hs,
          addWalk_ok basePfx (fs.clean (trimSpace cand)) walk seen plans hd]
        exact hrec

/-- If no key the whole call would assign repeats, BuildPlans' loop
succeeds and appends exactly one plan per encountered file, whose keys
are the planned keys in traversal order. -/
theorem buildGo_ok (fs : Fs) (basePfx : Str) :
    ∀ (paths : List Str) (seen : List Str) (plans : List FilePlan),
      (∀ p ∈ paths, trimSpace p ≠ [] ∧ (fs.stat (trimSpace p)).isSome) →
      firstDupFrom seen ((paths.map (pathKeys fs basePfx)).flatten) = none →
      ∃ extra, buildGo fs basePfx paths seen plans = .ok (plans ++ extra) ∧
        extra.map FilePlan.Key = (paths.map (pathKeys fs basePfx)).flatten := by
  intro paths
  induction paths with
  | nil => intro seen plans _ _; exact ⟨[], by simp [buildGo], by simp⟩
  | cons cand rest ih =>
    intro seen plans hok h
    obtain ⟨hne, hstat⟩ := hok cand (List.mem_cons_self cand rest)
    have hok' : ∀ p ∈ rest, trimSpace p ≠ [] ∧ (fs.stat (trimSpace p)).isSome :=
      fun p hp => hok p (List.mem_cons_of_mem _ hp)
    rw [plannedKeys_cons, firstDupFrom_append] at h
    match hs : fs.stat (trimSpace cand) with
    | none => rw [hs] at hstat; simp at hstat
    | some (.fileStat sz) =>
      have hkeys : pathKeys fs basePfx cand =
          [joinKey basePfx (toSlash (baseName (trimSpace cand)))] := by
        simp [pathKeys, hs]
      rw [hkeys] at h
      by_cases hmem : joinKey basePfx (toSlash (baseName (trimSpace cand))) ∈ seen
      · simp [firstDupFrom, hmem] at h
      · simp only [firstDupFrom, hmem, if_false, List.reverse_singleton,
          List.singleton_append] at h
        obtain ⟨extra, hgo, hmap⟩ :=
          ih (joinKey basePfx (toSlash (baseName (trimSpace cand))) :: seen)
            (plans ++ [⟨trimSpace cand,
              joinKey basePfx (toSlash (baseName (trimSpace cand))), sz⟩]) hok' h
        refine ⟨⟨trimSpace cand,
          joinKey basePfx (toSlash (baseName (trimSpace cand))), sz⟩ :: extra, ?_, ?_⟩
        · simp [buildGo, hne, hs, hmem]
          rw [hgo, List.append_assoc, List.singleton_append]
        · rw [plannedKeys_cons, hkeys]
          simp [hmap]
    | some (.dirStat walk) =>
      have hkeys : pathKeys fs basePfx cand = walk.map (walkKey basePfx) := by
        simp [pathKeys, hs]
      rw [hkeys] at h
      cases hd : firstDupFrom seen (walk.map (walkKey basePfx)) with
      | some k2 => rw [hd] at h; simp at h
      | none =>
        rw [hd] at h
        obtain ⟨extra, hgo, hmap⟩ :=
          ih ((walk.map (walkKey basePfx)).reverse ++ seen)
            (plans ++ walk.map (walkPlan basePfx (fs.clean (trimSpace cand)))) hok' h
        refine ⟨walk.map (walkPlan basePfx (fs.clean (trimSpace cand))) ++ extra,
          ?_, ?_⟩
        · simp [buildGo, hne, hs,
            addWalk_ok basePfx (fs.clean (trimSpace cand)) walk seen plans hd]
          rw [hgo, List.append_assoc]
        · rw [plannedKeys_cons, hkeys]
          simp only [List.map_append, hmap, List.map_map]
          congr 1

/-- C2: as soon as two entries would resolve to the same object key,
BuildPlans fails with a DuplicateKey error carrying the key of the second
occurrence in traversal order and returns no plans (the Go code returns
nil alongside the error); detection spans the whole call, across input
paths; with no repeat, BuildPlans returns exactly the planned keys. -/
theorem buildPlans_duplicate_detection (fs : Fs) (paths : List Str) (pfx : Str)
    (hne : paths ≠ [])
    (hok : ∀ p ∈ paths, trimSpace p ≠ [] ∧ (fs.stat (trimSpace p)).isSome) :
    (∀ k, firstDup (plannedKeys fs paths pfx) = some k →
      BuildPlans fs paths pfx = .error (.duplicateKey k)) ∧
    (firstDup (plannedKeys fs paths pfx) = none →
      ∃ plans, BuildPlans fs paths pfx = .ok plans ∧
        plans.map FilePlan.Key = plannedKeys fs paths pfx) := by
  have hempty : paths.isEmpty = false := by
    cases paths with
    | nil => exact absurd rfl hne
    | cons a l => rfl
  constructor
  · intro k h
    rw [BuildPlans, hempty]
    simp only [Bool.false_eq_true, if_false]
    exact buildGo_dup fs (normalizePrefix pfx) paths [] [] k hok h
  · intro h
    obtain ⟨extra, hgo, hmap⟩ :=
      buildGo_ok fs (normalizePrefix pfx) paths [] [] hok h
    refine ⟨extra, ?_, hmap⟩
    rw [BuildPlans, hempty]
    simpa using hgo

/-- C2 witness: the same file supplied twice collides on its key and
BuildPlans reports that key, returning no plans. -/
theorem buildPlans_duplicate_detection_witness :
    BuildPlans fsDupFile ["a.txt".data, "a.txt".data] [] =
      .error (.duplicateKey ("a.txt".data)) :=
  (buildPlans_duplicate_detection fsDupFile ["a.txt".data, "a.txt".data] []
    (by decide) (by decide)).1 ("a.txt".data) (by decide)

/-! ## C5, C6, C7: the cleanup engine -/

/-- Every listing call the cleanup loop issues passes the same prefix
argument it was started with. -/
theorem cleanupLoop_list_pfx (p : Option Str) :
    ∀ (pages : List PageScript) (token : Option Str) (total : Nat) (q t : Option Str),
      CleanEv.listCall q t ∈ (cleanupLoop p pages token total).2 → q = p := by
  intro pages
  induction pages with
  | nil =>
    intro token total q t h
    simp [cleanupLoop] at h
    exact h.1
  | cons pg rest ih =>
    intro token total q t h
    obtain ⟨le, cs, nx, de⟩ := pg
    cases le with
    | some e =>
      simp [cleanupLoop] at h
      exact h.1
    | none =>
      cases cs with
      | nil =>
        cases nx with
        | none =>
          simp [cleanupLoop] at h
          exact h.1
        | some t2 =>
          simp [cleanupLoop] at h
          rcases h with ⟨h1, h2⟩ | h
          · exact h1
          · exact ih _ _ _ _ h
      | cons c cs2 =>
        cases de with
        | some e =>
          simp [cleanupLoop] at h
          exact h.1
        | none =>
          cases nx with
          | none =>
            simp [cleanupLoop] at h
            exact h.1
          | some t2 =>
            simp [cleanupLoop] at h
            rcases h with ⟨h1, h2⟩ | h
            · exact h1
            · exact ih _ _ _ _ h

/-- Every batch deletion the cleanup loop issues names exactly the
contents of one scripted page, with the quiet flag set. -/
theorem cleanupLoop_delete_keys (p : Option Str) :
    ∀ (pages : List PageScript) (token : Option Str) (total : Nat)
      (ks : List Str) (b : Bool),
      CleanEv.deleteCall ks b ∈ (cleanupLoop p pages token total).2 →
      ∃ pg, pg ∈ pages ∧ ks = pg.contents ∧ b = true := by
  intro pages
  induction pages with
  | nil =>
    intro token total ks b h
    simp [cleanupLoop] at h
  | cons pg rest ih =>
    intro token total ks b h
    obtain ⟨le, cs, nx, de⟩ := pg
    cases le with
    | some e => simp [cleanupLoop] at h
    | none =>
      cases cs with
      | nil =>
        cases nx with
        | none => simp [cleanupLoop] at h
        | some t2 =>
          simp [cleanupLoop] at h
          obtain ⟨pg2, hpg, hks, hb⟩ := ih _ _ _ _ h
          exact ⟨pg2, List.mem_cons_of_mem _ hpg, hks, hb⟩
      | cons c cs2 =>
        cases de with
        | some e =>
          simp [cleanupLoop] at h
          exact ⟨⟨none, c :: cs2, nx, some e⟩, List.mem_cons_self _ _, h.1, h.2⟩
        | none =>
          cases nx with
          | none =>
            simp [cleanupLoop] at h
            exact ⟨⟨none, c :: cs2, none, none⟩, List.mem_cons_self _ _, h.1, h.2⟩
          | some t2 =>
            simp [cleanupLoop] at h
            rcases h with ⟨h1, h2⟩ | h
            · exact ⟨⟨none, c :: cs2, some t2, none⟩, List.mem_cons_self _ _, h1, h2⟩
            · obtain ⟨pg2, hpg, hks, hb⟩ := ih _ _ _ _ h
              exact ⟨pg2, List.mem_cons_of_mem _ hpg, hks, hb⟩

/-- C5: an empty prefix lists the whole bucket (a nil prefix argument on
every listing call); a non-empty prefix is normalized and suffixed with a
slash, every listing call passes exactly that scoped prefix, and - when
the backend honors the scope, answering only keys under it - every key
every deletion names stays under that scope. -/
theorem cleanup_scoping (pages : List PageScript) (pfx : Str) :
    (normalizePrefix pfx = [] →
      ∀ q t, CleanEv.listCall q t ∈ (Cleanup pages pfx).2 → q = none) ∧
    (normalizePrefix pfx ≠ [] →
      (∀ q t, CleanEv.listCall q t ∈ (Cleanup pages pfx).2 →
        q = some (normalizePrefix pfx ++ ['/'])) ∧
      ((∀ pg ∈ pages, ∀ k ∈ pg.contents,
          (normalizePrefix pfx ++ ['/']).isPrefixOf k = true) →
        ∀ ks b, CleanEv.deleteCall ks b ∈ (Cleanup pages pfx).2 →
          ∀ k ∈ ks, (normalizePrefix pfx ++ ['/']).isPrefixOf k = true)) := by
  constructor
  · intro hq q t h
    rw [Cleanup] at h
    simp only [hq, ne_eq, not_true_eq_false, if_false, reduceIte] at h
    have hsp : stringPointer [] = none := rfl
    rw [hsp] at h
    exact cleanupLoop_list_pfx none pages none 0 q t h
  · intro hq
    have hres : (if normalizePrefix pfx ≠ [] then normalizePrefix pfx ++ ['/']
        else normalizePrefix pfx) = normalizePrefix pfx ++ ['/'] := by
      simp [hq]
    constructor
    · intro q t h
      rw [Cleanup] at h
      rw [hres, stringPointer_slash] at h
      exact cleanupLoop_list_pfx _ pages none 0 q t h
    · intro hscope ks b h k hk
      rw [Cleanup] at h
      rw [hres, stringPointer_slash] at h
      obtain ⟨pg, hpg, hks, _⟩ := cleanupLoop_delete_keys _ pages none 0 ks b h
      subst hks
      exact hscope pg hpg k hk

/-- The cleanup loop, run on an error-free consumed script, returns its
starting count plus the sizes of all consumed pages, and issues exactly one
quiet batch deletion per non-empty consumed page, in page order. -/
theorem cleanupLoop_count (p : Option Str) :
    ∀ (pages : List PageScript) (token : Option Str) (total : Nat),
      (∀ pg ∈ consumedPages pages, pg.listErr = none ∧
        (pg.contents.isEmpty = false → pg.deleteErr = none)) →
      (cleanupLoop p pages token total).1 =
        (total + ((consumedPages pages).map (fun pg => pg.contents.length)).sum,
         none) ∧
      (cleanupLoop p pages token total).2.filter isDeleteEv =
        ((consumedPages pages).filter (fun pg => !pg.contents.isEmpty)).map
          (fun pg => CleanEv.deleteCall pg.contents true) := by
  intro pages
  induction pages with
  | nil =>
    intro token total _
    refine ⟨by simp [cleanupLoop, consumedPages], ?_⟩
    simp [cleanupLoop, consumedPages, isDeleteEv]
  | cons pg rest ih =>
    intro token total hok
    have hmem : pg ∈ consumedPages (pg :: rest) := by
      rw [consumedPages]
      match pg.next with
      | none => exact List.mem_singleton.mpr rfl
      | some t2 => exact List.mem_cons_self _ _
    obtain ⟨hl, hdel⟩ := hok pg hmem
    by_cases hc : pg.contents.isEmpty
    · have hcon : pg.contents = [] := List.isEmpty_iff.mp hc
      match hn : pg.next with
      | none =>
        constructor
        · simp [cleanupLoop, hl, hc, hn, consumedPages, hcon]
        · simp [cleanupLoop, hl, hc, hn, consumedPages, hcon, isDeleteEv]
      | some t2 =>
        have hok' : ∀ pg2 ∈ consumedPages rest, pg2.listErr = none ∧
            (pg2.contents.isEmpty = false → pg2.deleteErr = none) := by
          intro pg2 hpg2
          exact hok pg2 (by rw [consumedPages, hn]; exact List.mem_cons_of_mem _ hpg2)
        obtain ⟨ih1, ih2⟩ := ih (some t2) total hok'
        constructor
        · simp [cleanupLoop, hl, hc, hn, consumedPages, hcon, ih1]
        · simp [cleanupLoop, hl, hc, hn, consumedPages, hcon, isDeleteEv, ih2]
    · have hd : pg.deleteErr = none := hdel (Bool.eq_false_iff.mpr hc)
      match hn : pg.next with
      | none =>
        constructor
        · simp [cleanupLoop, hl, hc, hd, hn, consumedPages]
        · simp [cleanupLoop, hl, hc, hd, hn, consumedPages, isDeleteEv]
      | some t2 =>
        have hok' : ∀ pg2 ∈ consumedPages rest, pg2.listErr = none ∧
            (pg2.contents.isEmpty = false → pg2.deleteErr = none) := by
          intro pg2 hpg2
          exact hok pg2 (by rw [consumedPages, hn]; exact List.mem_cons_of_mem _ hpg2)
        obtain ⟨ih1, ih2⟩ := ih (some t2) (total + pg.contents.length) hok'
        constructor
        · simp [cleanupLoop, hl, hc, hd, hn, consumedPages, ih1, Nat.add_assoc]
        · simp [cleanupLoop, hl, hc, hd, hn, consumedPages, isDeleteEv, ih2]

/-- C6: the cleanup loop follows the specified page protocol: an empty
page without continuation terminates with the accumulated count, an empty
page with a continuation advances and loops, and a page with objects
triggers exactly one quiet batch deletion naming every key of that page
and adds the page size to the count; over an error-free script the final
count is the total size of the consumed pages. -/
theorem cleanup_page_protocol (pages : List PageScript) (pfx : Str)
    (hok : ∀ pg ∈ consumedPages pages, pg.listErr = none ∧
      (pg.contents.isEmpty = false → pg.deleteErr = none)) :
    (Cleanup pages pfx).1 =
      (((consumedPages pages).map (fun pg => pg.contents.length)).sum, none) ∧
    (Cleanup pages pfx).2.filter isDeleteEv =
      ((consumedPages pages).filter (fun pg => !pg.contents.isEmpty)).map
        (fun pg => CleanEv.deleteCall pg.contents true) := by
  obtain ⟨h1, h2⟩ := cleanupLoop_count
    (stringPointer (if normalizePrefix pfx ≠ [] then normalizePrefix pfx ++ ['/']
      else normalizePrefix pfx)) pages none 0 hok
  rw [Cleanup]
  exact ⟨by rw [h1, Nat.zero_add], h2⟩

/-- C6 witness: a page of two keys with a continuation token followed by a
terminal empty page yields a count of two and a single quiet deletion
naming both keys. -/
theorem cleanup_page_protocol_witness :
    (Cleanup pagesTwoThenEmpty ("logs".data)).1 = (2, none) ∧
    (Cleanup pagesTwoThenEmpty ("logs".data)).2.filter isDeleteEv =
      [CleanEv.deleteCall ["logs/a".data, "logs/b".data] true] :=
  cleanup_page_protocol pagesTwoThenEmpty ("logs".data) (by decide)

/-- On a failing script the cleanup loop returns its starting count plus
whatever it deleted before the failing call. -/
theorem cleanupLoop_abort_count (p : Option Str) :
    ∀ (pages : List PageScript) (token : Option Str) (total : Nat) (e : CleanErr),
      (cleanupLoop p pages token total).1.2 = some e →
      (cleanupLoop p pages token total).1.1 = total + deletedBeforeFailure pages := by
  intro pages
  induction pages with
  | nil =>
    intro token total e h
    simp [cleanupLoop] at h
  | cons pg rest ih =>
    intro token total e h
    match hl : pg.listErr with
    | some e2 =>
      simp only [cleanupLoop, hl] at h ⊢
      simp [deletedBeforeFailure, hl]
    | none =>
      by_cases hc : pg.contents.isEmpty
      · have hcon : pg.contents = [] := List.isEmpty_iff.mp hc
        match hn : pg.next with
        | none => simp [cleanupLoop, hl, hc, hn] at h
        | some t2 =>
          simp only [cleanupLoop, hl, hc, if_true, hn] at h ⊢
          rw [ih _ _ _ h]
          simp [deletedBeforeFailure, hl, hcon, hn]
      · match hd : pg.deleteErr with
        | some e2 =>
          simp only [cleanupLoop, hl, hc, if_false, hd] at h ⊢
          simp [deletedBeforeFailure, hl, hc, hd]
        | none =>
          match hn : pg.next with
          | none => simp [cleanupLoop, hl, hc, hd, hn] at h
          | some t2 =>
            simp only [cleanupLoop, hl, hn] at h ⊢
            have hcon : pg.contents.isEmpty = false := Bool.eq_false_iff.mpr hc
            simp only [hcon, Bool.false_eq_true, if_false, hd] at h ⊢
            rw [ih _ _ _ h]
            simp [deletedBeforeFailure, hl, hcon, hd, hn, Nat.add_assoc]

/-- C7: when a listing or deletion call fails, Cleanup aborts but reports
partial progress: the returned count equals the number of objects deleted
before the failing call, alongside the error. -/
theorem cleanup_partial_progress (pages : List PageScript) (pfx : Str) (e : CleanErr)
    (h : (Cleanup pages pfx).1.2 = some e) :
    (Cleanup pages pfx).1.1 = deletedBeforeFailure pages := by
  rw [Cleanup] at h ⊢
  rw [cleanupLoop_abort_count _ pages none 0 e h, Nat.zero_add]

/-- C7 witness: after one page of two keys is deleted, the second listing
call fails; the reported count is the two deleted objects next to the
error. -/
theorem cleanup_partial_progress_witness :
    (Cleanup pagesThenListFails []).1.1 = 2 :=
  cleanup_partial_progress pagesThenListFails [] (.listFailed errBoom) (by decide)

/-! ## C3, C8, C9, C10: the transfer engine -/

/-- A successful per-plan step carries the plan's source, key and size
into its result. -/
theorem uploadStep_ok_fields (w : World) (ow : Bool) (p : FilePlan) :
    ∀ r ev, uploadStep w ow p = (.ok r, ev) →
      r.Source = p.Source ∧ r.Key = p.Key ∧ r.Size = p.Size := by
  intro r ev h
  unfold uploadStep at h
  repeat' split at h
  all_goals simp_all
  all_goals (obtain ⟨h1, h2⟩ := h; subst h1; exact ⟨rfl, rfl, rfl⟩)

/-- With overwrite enabled the per-plan step never issues an existence
probe. -/
theorem uploadStep_no_head (w : World) (p : FilePlan) :
    ∀ k, UpEv.headCall k ∉ (uploadStep w true p).2 := by
  intro k
  unfold uploadStep
  repeat' split
  all_goals simp_all

/-- With overwrite disabled the first call of every per-plan step is the
existence probe for that plan's key. -/
theorem uploadStep_guard_first (w : World) (p : FilePlan) :
    (uploadStep w false p).2.head? = some (.headCall p.Key) := by
  unfold uploadStep
  repeat' split
  all_goals simp_all

/-- Any put the per-plan step issues targets the plan's key, streams the
full file content from the rewound position, and attaches the detected
content type. -/
theorem uploadStep_putCall (w : World) (ow : Bool) (p : FilePlan) :
    ∀ k ct body, UpEv.putCall k ct body ∈ (uploadStep w ow p).2 →
      k = p.Key ∧ body = w.content p.Source ∧
      ct = stringPointer ((detectContentType w p.Source (w.content p.Source) 0).1) := by
  intro k ct body h
  unfold uploadStep at h
  repeat' split at h
  all_goals simp_all

/-- The upload loop pairs every error with nil results, dropping results
accumulated earlier in the same call. -/
theorem uploadLoop_error_nil (w : World) (ow : Bool) :
    ∀ (plans : List FilePlan) (acc : List UploadResult) (e : UpErr),
      (uploadLoop w ow plans acc).1.2 = some e →
      (uploadLoop w ow plans acc).1.1 = [] := by
  intro plans
  induction plans with
  | nil => intro acc e h; simp [uploadLoop] at h
  | cons p rest ih =>
    intro acc e h
    rcases hstep : uploadStep w ow p with ⟨res, ev⟩
    cases res with
    | error e2 => simp [uploadLoop, hstep]
    | ok r =>
      simp only [uploadLoop, hstep] at h ⊢
      exact ih _ _ h

/-- A fully successful upload loop returns one result per plan, in the
order supplied, carrying each plan's source, key and size. -/
theorem uploadLoop_ok_order (w : World) (ow : Bool) :
    ∀ (plans : List FilePlan) (acc : List UploadResult),
      (uploadLoop w ow plans acc).1.2 = none →
      (uploadLoop w ow plans acc).1.1.map (fun r => (r.Source, r.Key, r.Size)) =
        acc.map (fun r => (r.Source, r.Key, r.Size)) ++
          plans.map (fun p => (p.Source, p.Key, p.Size)) := by
  intro plans
  induction plans with
  | nil => intro acc _; simp [uploadLoop]
  | cons p rest ih =>
    intro acc h
    rcases hstep : uploadStep w ow p with ⟨res, ev⟩
    cases res with
    | error e2 => simp [uploadLoop, hstep] at h
    | ok r =>
      simp only [uploadLoop, hstep] at h ⊢
      obtain ⟨h1, h2, h3⟩ := uploadStep_ok_fields w ow p r ev hstep
      rw [ih _ h]
      simp [h1, h2, h3]

/-- With overwrite enabled the upload loop never issues an existence
probe. -/
theorem uploadLoop_no_head (w : World) :
    ∀ (plans : List FilePlan) (acc : List UploadResult) (k : Str),
      UpEv.headCall k ∉ (uploadLoop w true plans acc).2 := by
  intro plans
  induction plans with
  | nil => intro acc k; simp [uploadLoop]
  | cons p rest ih =>
    intro acc k
    rcases hstep : uploadStep w true p with ⟨res, ev⟩
    have hev : UpEv.headCall k ∉ ev := by
      have := uploadStep_no_head w p k
      rw [hstep] at this
      exact this
    cases res with
    | error e =>
      simp only [uploadLoop, hstep]
      exact hev
    | ok r =>
      simp only [uploadLoop, hstep]
      intro hmem
      rcases List.mem_append.mp hmem with hm | hm
      · exact hev hm
      · exact ih _ k hm

/-- A failing existence guard stops the per-plan step after the single
probe call: no open, no put. -/
theorem uploadStep_guard_abort (w : World) (p : FilePlan)
    (h : ensureAbsent w.head p.Key ≠ .ok) :
    ∃ e, uploadStep w false p = (.error e, [.headCall p.Key]) := by
  cases he : ensureAbsent w.head p.Key with
  | ok => exact absurd he h
  | objectExists k => exact ⟨.objectExists k, by simp [uploadStep, he]⟩
  | ioError k e2 => exact ⟨.headFailed k e2, by simp [uploadStep, he]⟩

/-- A failing existence guard on the first plan aborts the whole batch
with nil results and a lone probe call in the trace. -/
theorem uploadLoop_guard_abort (w : World) :
    ∀ (p : FilePlan) (rest : List FilePlan) (acc : List UploadResult),
      ensureAbsent w.head p.Key ≠ .ok →
      ∃ e, uploadLoop w false (p :: rest) acc = (([], some e), [.headCall p.Key]) := by
  intro p rest acc h
  obtain ⟨e, hstep⟩ := uploadStep_guard_abort w p h
  exact ⟨e, by simp [uploadLoop, hstep]⟩

/-- Any put the upload loop issues belongs to one of the plans and
streams that plan's full file content. -/
theorem uploadLoop_putCall (w : World) :
    ∀ (ow : Bool) (plans : List FilePlan) (acc : List UploadResult)
      (k : Str) (ct : Option Str) (body : List UInt8),
      UpEv.putCall k ct body ∈ (uploadLoop w ow plans acc).2 →
      ∃ p, p ∈ plans ∧ k = p.Key ∧ body = w.content p.Source ∧
        ct = stringPointer ((detectContentType w p.Source (w.content p.Source) 0).1) := by
  intro ow plans
  induction plans with
  | nil => intro acc k ct body h; simp [uploadLoop] at h
  | cons p rest ih =>
    intro acc k ct body h
    rcases hstep : uploadStep w ow p with ⟨res, ev⟩
    have hev : UpEv.putCall k ct body ∈ ev →
        k = p.Key ∧ body = w.content p.Source ∧
        ct = stringPointer ((detectContentType w p.Source (w.content p.Source) 0).1) := by
      intro hm
      have := uploadStep_putCall w ow p k ct body
      rw [hstep] at this
      exact this hm
    cases res with
    | error e =>
      simp only [uploadLoop, hstep] at h
      obtain ⟨h1, h2, h3⟩ := hev h
      exact ⟨p, List.mem_cons_self p rest, h1, h2, h3⟩
    | ok r =>
      simp only [uploadLoop, hstep] at h
      rcases List.mem_append.mp h with hm | hm
      · obtain ⟨h1, h2, h3⟩ := hev hm
        exact ⟨p, List.mem_cons_self p rest, h1, h2, h3⟩
      · obtain ⟨p2, hp2, h1, h2, h3⟩ := ih _ _ _ _ hm
        exact ⟨p2, List.mem_cons_of_mem _ hp2, h1, h2, h3⟩

/-- C3: Upload processes plans strictly in the order supplied and is
fail-fast: any failing plan makes the whole call return that error with
zero results - no result survives for plans transferred earlier in the
same call - while a fully successful call returns one result per plan in
order. -/
theorem upload_fail_fast (w : World) (ow : Bool) (plans : List FilePlan) :
    (∀ e, (Upload w ow plans).1.2 = some e → (Upload w ow plans).1.1 = []) ∧
    ((Upload w ow plans).1.2 = none →
      (Upload w ow plans).1.1.map (fun r => (r.Source, r.Key, r.Size)) =
        plans.map (fun p => (p.Source, p.Key, p.Size))) := by
  by_cases hp : plans.isEmpty
  · constructor
    · intro e h; simp [Upload, hp]
    · intro h; simp [Upload, hp] at h
  · constructor
    · intro e h
      rw [Upload, if_neg hp] at h ⊢
      exact uploadLoop_error_nil w ow plans [] e h
    · intro h
      rw [Upload, if_neg hp] at h ⊢
      simpa using uploadLoop_ok_order w ow plans [] h

/-- C3 witness: of three plans the second fails to open; upload returns
an error and an empty result list, not a one-element partial list. -/
theorem upload_fail_fast_witness :
    (Upload wOpenBFails true [planA, planB, planC]).1.1 = [] :=
  (upload_fail_fast wOpenBFails true [planA, planB, planC]).1
    (.openFailed ("b".data)) (by decide)

/-- C8: with overwrite enabled the existence probe is never invoked on
any plan; with overwrite disabled the guard runs first for each plan, and
a guard failure (ObjectExists or IOError) aborts the batch with no put
issued for that plan. -/
theorem upload_overwrite_probe (w : World) :
    (∀ plans k, UpEv.headCall k ∉ (Upload w true plans).2) ∧
    (∀ p, (uploadStep w false p).2.head? = some (.headCall p.Key)) ∧
    (∀ p rest acc, ensureAbsent w.head p.Key ≠ .ok →
      ∃ e, uploadLoop w false (p :: rest) acc = (([], some e), [.headCall p.Key])) := by
  refine ⟨?_, ?_, ?_⟩
  · intro plans k
    by_cases hp : plans.isEmpty
    · simp [Upload, hp]
    · rw [Upload, if_neg hp]
      exact uploadLoop_no_head w plans [] k
  · exact uploadStep_guard_first w
  · exact uploadLoop_guard_abort w

/-- C8 witness: with every key taken and overwrite disabled, a batch
aborts on its first plan after the lone probe call. -/
theorem upload_overwrite_probe_witness :
    ∃ e, uploadLoop wHeadTaken false [planA] [] =
      (([], some e), [UpEv.headCall ("p/a".data)]) :=
  (upload_overwrite_probe wHeadTaken).2.2 planA [] [] (by decide)

/-- C9: content-type detection is extension-first: a recognized extension
answers from the mime table at the unchanged read position, independent of
the file content; otherwise at most the first 512 bytes from the current
position are sniffed; and every uploaded body equals the full original
file content, the position having been reset before streaming. -/
theorem content_type_detection (w : World) :
    (∀ path c pos,
      toLowerStr (filepathExt path) ≠ [] →
      w.mimeByExt (toLowerStr (filepathExt path)) ≠ [] →
      detectContentType w path c pos =
        (w.mimeByExt (toLowerStr (filepathExt path)), pos)) ∧
    (∀ path c pos,
      toLowerStr (filepathExt path) = [] ∨
        w.mimeByExt (toLowerStr (filepathExt path)) = [] →
      detectContentType w path c pos =
        (w.sniff ((c.drop pos).take (min 512 (c.length - pos))),
         pos + min 512 (c.length - pos))) ∧
    (∀ ow plans acc k ct body,
      UpEv.putCall k ct body ∈ (uploadLoop w ow plans acc).2 →
      ∃ p, p ∈ plans ∧ k = p.Key ∧ body = w.content p.Source ∧
        ct = stringPointer ((detectContentType w p.Source (w.content p.Source) 0).1)) := by
  refine ⟨?_, ?_, ?_⟩
  · intro path c pos h1 h2
    simp [detectContentType, h1, h2]
  · intro path c pos h
    have hcond : ¬(toLowerStr (filepathExt path) ≠ [] ∧
        w.mimeByExt (toLowerStr (filepathExt path)) ≠ []) := by
      rcases h with h | h
      · intro hc; exact hc.1 h
      · intro hc; exact hc.2 h
    simp [detectContentType, hcond]
  · exact uploadLoop_putCall w

/-- C9 witness: a .txt file is tagged from the mime table with the read
position untouched. -/
theorem content_type_detection_witness :
    detectContentType wTxtMime ("f.txt".data) [] 0 =
      ("text/plain; charset=utf-8".data, 0) :=
  (content_type_detection wTxtMime).1 ("f.txt".data) [] 0 (by decide) (by decide)

/-- C10: a non-empty, non-blank input consisting of one directory with no
files makes BuildPlans succeed with an empty plan list, and Upload of that
empty list fails with the empty-plan-list error before any storage call
(its trace is empty). -/
theorem empty_plan_upload_reject :
    (["data".data] : List Str) ≠ [] ∧
    trimSpace ("data".data) ≠ [] ∧
    BuildPlans fsEmptyDir ["data".data] ("artifact".data) = .ok [] ∧
    Upload wAllOk true [] = (([], some .noFiles), []) := by
  refine ⟨by decide, by decide, by rfl, rfl⟩


end DsS3
